import Mathlib

/-!
Verification of the dependency-closure algorithm of
diskimage_builder/element_dependencies.py.

The file embeds the two components of the program:

* the metadata store lookup (the function named with a leading underscore
  in the source, embedded here as get_set): a search over an ordered list
  of path entries, each entry mapping element names to element directories,
  each directory mapping file names to lists of lines;

* the dependency expander expand_dependencies: a FIFO worklist loop over a
  ClosureState (finalElements, queue, provided, providedBy), followed by
  the operating-system check and the conflicting-elements check, returning
  finalElements minus provided.

The loop is embedded with explicit fuel; the fuel bound fuelInit is proved
sufficient (the loop never runs out), which settles termination.

A second, nondeterministic small-step semantics (NStep) relaxes the FIFO
queue to an arbitrary processing order of the pending elements. It is a
proven over-approximation of the loop (step_refines_nstep,
runLoop_done_nreach): every run of the embedded program is an NStep run,
so universally quantified statements about NStep runs, such as the
amended order-independence theorem, apply to all program runs. Behaviours
are never exhibited through NStep: the order-independence counterexample
consists of two plain expand_dependencies runs.
-/

/-- Python str.strip(): remove leading and trailing whitespace. Embedded
directly on the character list so that it evaluates by kernel reduction. -/
def strip (s : String) : String :=
  ⟨((s.data.dropWhile Char.isWhitespace).reverse.dropWhile Char.isWhitespace).reverse⟩

/-- The set of whitespace-stripped lines of a file, as computed by
set([line.strip() for line in f]) in the source. Blank lines contribute
the empty string. -/
def trimset (lines : List String) : Finset String :=
  (lines.map strip).toFinset

/-- Association-list lookup on string keys, used for all the finite maps
of the embedding (store items, directory files, path-entry elements). -/
def assocFind {α : Type} : List (String × α) → String → Option α
  | [], _ => none
  | (k, v) :: rest, x => if k = x then some v else assocFind rest x

/-- providedBy lookup: provided_by is a defaultdict(list), so a missing
key reads as the empty list. -/
def pbGet (pb : List (String × List String)) (n : String) : List String :=
  match pb with
  | [] => []
  | (k, vs) :: rest => if k = n then vs else pbGet rest n

/-- provided_by[n].append(e) on the association-list representation. -/
def pbAppend : List (String × List String) → String → String → List (String × List String)
  | [], n, e => [(n, [e])]
  | (k, vs) :: rest, n, e =>
      if k = n then (k, vs ++ [e]) :: rest else (k, vs) :: pbAppend rest n e

/-- The loop body line: for provide in element_provides:
provided_by[provide].append(element). The provides set is iterated once
per distinct name. -/
def pbAddAll (pb : List (String × List String)) (provs : List String)
    (e : String) : List (String × List String) :=
  provs.foldl (fun acc n => pbAppend acc n e) pb

/-- The metadata store seen by the expander: for each element name, the
lines of its element-deps file and the lines of its element-provides file.
A name absent from the list is an element not found anywhere on the
search path (both of its lookups fail). -/
structure Store where
  items : List (String × List String × List String)
deriving DecidableEq

/-- Looking an element up in the store; none models the fatal
element-not-found exit of the underscore get_set function. -/
def Store.find (s : Store) (e : String) : Option (List String × List String) :=
  assocFind s.items e

/-- dependencies(element): the stripped lines of the element-deps file. -/
def depsOf (s : Store) (e : String) : Finset String :=
  match s.find e with
  | some (dl, _) => trimset dl
  | none => ∅

/-- provides(element): the stripped lines of the element-provides file. -/
def provsOf (s : Store) (e : String) : Finset String :=
  match s.find e with
  | some (_, pl) => trimset pl
  | none => ∅

/-- All dependency names mentioned anywhere in the store; a finite
universe bounding every element the loop can ever enqueue from a
dependency set. -/
def storeDepNames (s : Store) : Finset String :=
  s.items.foldr (fun it acc => trimset it.2.1 ∪ acc) ∅

/-- Working state of one expansion run: final_elements, check_queue,
provided, provided_by, exactly the four locals of expand_dependencies. -/
structure ClosureState where
  final : Finset String
  queue : List String
  provided : Finset String
  providedBy : List (String × List String)
deriving DecidableEq

/-- The initial state: final_elements = set(user_elements),
check_queue = deque(user_elements), provided = set(),
provided_by = defaultdict(list). -/
def initState (user : List String) : ClosureState :=
  ⟨user.toFinset, user, ∅, []⟩

/-- One processing iteration of the loop for a popped element e that is
not in provided and whose store lookup returned deps lines dl and
provides lines pl, in source order: update provided_by and provided,
extend the queue by element_deps - (final_elements | provided) (with
provided already updated), then add all deps to final_elements. -/
def processElement (st : ClosureState) (e : String) (rest : List String)
    (dl pl : List String) : ClosureState :=
  let provided' := st.provided ∪ trimset pl
  let newList := (dl.map strip).dedup.filter fun d => d ∉ st.final ∪ provided'
  ⟨st.final ∪ trimset dl,
   rest ++ newList,
   provided',
   pbAddAll st.providedBy (pl.map strip).dedup e⟩

/-- Outcome of examining the head of the queue once. -/
inductive StepOut where
  | next : ClosureState → StepOut
  | fail : String → StepOut
  | done : StepOut
deriving DecidableEq

/-- One iteration of the while loop: pop the front of the queue; skip it
if it is already provided; otherwise query the store (failing fatally if
the element is unknown) and process it. -/
def step (store : Store) (st : ClosureState) : StepOut :=
  match st.queue with
  | [] => .done
  | e :: rest =>
    if e ∈ st.provided then .next ⟨st.final, rest, st.provided, st.providedBy⟩
    else
      match store.find e with
      | none => .fail e
      | some (dl, pl) => .next (processElement st e rest dl pl)

/-- Result of running the while loop to completion. -/
inductive LoopResult where
  | done : ClosureState → LoopResult
  | notFound : String → LoopResult
  | outOfFuel : LoopResult
deriving DecidableEq

/-- The while loop, with explicit fuel. -/
def runLoop (store : Store) : Nat → ClosureState → LoopResult
  | 0, _ => .outOfFuel
  | fuel + 1, st =>
    match step store st with
    | .done => .done st
    | .fail e => .notFound e
    | .next st' => runLoop store fuel st'

/-- Outcome of expand_dependencies. The error constructors stand for the
logger.error + sys.exit(-1) paths of the source: an element missing from
the whole search path, a provided set without operating-system, and
user-requested elements already provided by another element (carrying
each conflicting name with its provided_by list). -/
inductive ExpandResult where
  | ok : Finset String → ExpandResult
  | elementNotFound : String → ExpandResult
  | missingOS : ExpandResult
  | conflicting : List (String × List String) → ExpandResult
  | outOfFuel : ExpandResult
deriving DecidableEq

/-- The post-loop part of expand_dependencies: the operating-system check
first, then the conflict check on set(user_elements) & provided, then
return final_elements - provided. Conflicts are enumerated in first
occurrence order of the user list. -/
def finish (user : List String) (st : ClosureState) : ExpandResult :=
  if "operating-system" ∈ st.provided then
    let conflicts := user.dedup.filter fun e => e ∈ st.provided
    if conflicts = [] then .ok (st.final \ st.provided)
    else .conflicting (conflicts.map fun n => (n, pbGet st.providedBy n))
  else .missingOS

/-- A finite universe containing the user elements and every dependency
name the store can ever hand to the loop. -/
def univBound (store : Store) (user : List String) : Finset String :=
  user.toFinset ∪ storeDepNames store

/-- Fuel that the termination proof shows is never exhausted. -/
def fuelInit (store : Store) (user : List String) : Nat :=
  user.length + 2 * (univBound store user).card + 1

/-- expand_dependencies(user_elements): run the loop from the initial
state, then validate and subtract. -/
def expand_dependencies (store : Store) (user : List String) : ExpandResult :=
  match runLoop store (fuelInit store user) (initState user) with
  | .done st => finish user st
  | .notFound e => .elementNotFound e
  | .outOfFuel => .outOfFuel

/-- An element directory on disk: its files, each a list of lines. -/
structure ElementDir where
  files : List (String × List String)
deriving DecidableEq

/-- os.path.join(path, element, fname) exists and is readable: the named
file of the element directory, as a list of lines. -/
def ElementDir.file (d : ElementDir) (f : String) : Option (List String) :=
  assocFind d.files f

/-- One entry of the colon-separated search path: the element directories
it contains. -/
structure PathEntry where
  elems : List (String × ElementDir)
deriving DecidableEq

/-- os.path.exists(os.path.join(path, element)): the element directory of
this search-path entry, when present. -/
def PathEntry.elem (p : PathEntry) (e : String) : Option ElementDir :=
  assocFind p.elems e

/-- Outcome of a metadata-store lookup: the parsed set, or the fatal
element-not-found exit, which names the element and the search path. -/
inductive GetSetResult where
  | ok : Finset String → GetSetResult
  | elementNotFound : String → List PathEntry → GetSetResult
deriving DecidableEq

/-- The search over elements_dir.split of the underscore get_set
function: at each entry, opening path/element/fname either succeeds
(read the stripped lines), or raises errno 2 with the element directory
present (return the empty set), or raises errno 2 with the directory
absent (continue with the next entry). -/
def get_set_go (element fname : String) : List PathEntry → Option (Finset String)
  | [] => none
  | p :: rest =>
    match p.elem element with
    | some dir =>
      match dir.file fname with
      | some lines => some (trimset lines)
      | none => some ∅
    | none => get_set_go element fname rest

/-- The underscore get_set function of the source: search the path; when
the whole path is exhausted, fail with the element-not-found error, which
names the element and the full search path. -/
def get_set (element fname : String) (path : List PathEntry) : GetSetResult :=
  match get_set_go element fname path with
  | some s => .ok s
  | none => .elementNotFound element path

/-- provides(element, elements_dir) of the source. -/
def providesFs (element : String) (path : List PathEntry) : GetSetResult :=
  get_set element "element-provides" path

/-- dependencies(element, elements_dir) of the source. -/
def dependenciesFs (element : String) (path : List PathEntry) : GetSetResult :=
  get_set element "element-deps" path

/-- State of the order-generalised expansion run: the same data as
ClosureState, with the FIFO queue relaxed to a multiset of pending
elements, plus the set of elements the store has been queried for
(observable through the store reads the run performs). -/
structure NState where
  final : Finset String
  pending : Multiset String
  provided : Finset String
  providedBy : List (String × List String)
  processed : Finset String
deriving DecidableEq

/-- Initial NState for a user request. -/
def initN (user : List String) : NState :=
  ⟨user.toFinset, Multiset.ofList user, ∅, [], ∅⟩

/-- One iteration of the loop with a free choice of which pending element
to pop: either the popped element is already provided and is skipped
without consulting the store, or it is processed exactly as in the
deterministic loop body. The free choice over-approximates the FIFO
deque of the source; the containment is proved by step_refines_nstep and
runLoop_done_nreach, so a property proved for every NStep run holds for
every run of the program. The relation is used only for such universally
quantified statements, never to exhibit a behaviour of the program. -/
inductive NStep (store : Store) : NState → NState → Prop where
  | skip (st st2 : NState) (e : String) :
      e ∈ st.pending → e ∈ st.provided →
      st2 = ⟨st.final, st.pending.erase e, st.provided, st.providedBy, st.processed⟩ →
      NStep store st st2
  | process (st st' : NState) (e : String) (dl pl : List String) :
      e ∈ st.pending → e ∉ st.provided → store.find e = some (dl, pl) →
      st' = ⟨st.final ∪ trimset dl,
             st.pending.erase e
               + (trimset dl \ (st.final ∪ (st.provided ∪ trimset pl))).val,
             st.provided ∪ trimset pl,
             pbAddAll st.providedBy (pl.map strip).dedup e,
             insert e st.processed⟩ →
      NStep store st st'

/-- A run of the order-generalised loop: finitely many NStep iterations. -/
def NReach (store : Store) : NState → NState → Prop :=
  Relation.ReflTransGen (NStep store)

/-- The post-loop validation applied to the state of an order-generalised
run. -/
def finishN (user : List String) (st : NState) : ExpandResult :=
  finish user ⟨st.final, [], st.provided, st.providedBy⟩

/-- Two outcomes agree up to the providedBy diagnostic lists: same result
set on success, same error kind on failure, same conflicting names. -/
def sameOutcome : ExpandResult → ExpandResult → Prop
  | .ok s, .ok t => s = t
  | .elementNotFound a, .elementNotFound b => a = b
  | .missingOS, .missingOS => True
  | .conflicting l₁, .conflicting l₂ => l₁.map Prod.fst = l₂.map Prod.fst
  | .outOfFuel, .outOfFuel => True
  | _, _ => False

/-- Store of concrete scenario 1: A depends on B, B provides the
operating system. -/
def store1 : Store :=
  ⟨[("A", (["B"], [])), ("B", ([], ["operating-system"]))]⟩

/-- Loop end state for store1 with user request [A]. -/
def st1 : ClosureState :=
  ⟨{"A", "B"}, [], {"operating-system"}, [("operating-system", ["B"])]⟩

/-- Store where A provides V but nothing provides the operating system. -/
def store3 : Store :=
  ⟨[("A", ([], ["V"]))]⟩

/-- Loop end state for store3 with user request [A, V]: the conflict on V
is present but the operating-system check fires first. -/
def st3 : ClosureState :=
  ⟨{"A", "V"}, [], {"V"}, [("V", ["A"])]⟩

/-- Store of concrete scenario 3: A provides V (and the operating system,
so that the conflict check is reached). -/
def store4 : Store :=
  ⟨[("A", ([], ["V", "operating-system"]))]⟩

/-- Loop end state for store4 with user request [A, V]. -/
def st4 : ClosureState :=
  ⟨{"A", "V"}, [], {"V", "operating-system"},
   [("V", ["A"]), ("operating-system", ["A"])]⟩

/-- Store showing order dependence of the FIFO loop itself: A provides X
and the operating system; B depends on X; C depends on A; X has its own
dependency D. With user set {B, C}, input order [B, C] pops X before A
has been processed, so X is queried and D discovered, while input order
[C, B] processes A first, so X is popped as provided and skipped. -/
def store9 : Store :=
  ⟨[("A", ([], ["X", "operating-system"])),
    ("B", (["X"], [])),
    ("C", (["A"], [])),
    ("X", (["D"], [])),
    ("D", ([], []))]⟩

/-- Store showing that re-expansion of a returned closure can grow: the
closure of [A] is computed while P is processed before anything provides
it, but P is subtracted from the result, so re-running from the result
explores D, which the first run skipped because P had provided it. -/
def store8 : Store :=
  ⟨[("A", (["P", "B"], [])),
    ("P", ([], ["D"])),
    ("B", (["D"], ["P", "operating-system"])),
    ("D", ([], []))]⟩

/-- A search-path entry that contains no element directories. -/
def pe0 : PathEntry := ⟨[]⟩

/-- An element directory for A with an element-deps file whose lines
carry surrounding whitespace and include a blank line. -/
def dirA : ElementDir := ⟨[("element-deps", ["  B  ", ""])]⟩

/-- A search-path entry containing the element directory for A. -/
def pe1 : PathEntry := ⟨[("A", dirA)]⟩

/-- An element directory for A with no files at all. -/
def dirEmpty : ElementDir := ⟨[]⟩

/-- A later search-path entry also containing A, with an empty dir. -/
def pe2 : PathEntry := ⟨[("A", dirEmpty)]⟩

theorem pbGet_pbAppend (pb : List (String × List String)) (n e m : String) :
    pbGet (pbAppend pb n e) m = if n = m then pbGet pb m ++ [e] else pbGet pb m := by
  induction pb with
  | nil =>
    by_cases h : n = m <;> simp [pbAppend, pbGet, h]
  | cons kv rest ih =>
    obtain ⟨k, vs⟩ := kv
    by_cases hkn : k = n
    · subst hkn
      by_cases hkm : k = m <;> simp [pbAppend, pbGet, hkm]
    · by_cases hkm : k = m
      · subst hkm
        have hnm : ¬ n = k := fun h2 => hkn h2.symm
        simp [pbAppend, pbGet, hkn, hnm]
      · simp [pbAppend, pbGet, hkn, hkm, ih]

theorem mem_pbGet_pbAddAll (pb : List (String × List String)) (provs : List String)
    (e x n : String) (h : x ∈ pbGet (pbAddAll pb provs e) n) :
    x ∈ pbGet pb n ∨ (x = e ∧ n ∈ provs) := by
  induction provs generalizing pb with
  | nil => exact Or.inl h
  | cons q qs ih =>
    rcases ih (pbAppend pb q e) h with h' | ⟨hx, hn⟩
    · rw [pbGet_pbAppend] at h'
      by_cases hqn : q = n
      · rw [if_pos hqn] at h'
        rcases List.mem_append.1 h' with h'' | h''
        · exact Or.inl h''
        · exact Or.inr ⟨List.mem_singleton.1 h'', hqn ▸ List.mem_cons_self q qs⟩
      · rw [if_neg hqn] at h'
        exact Or.inl h'
    · exact Or.inr ⟨hx, List.mem_cons_of_mem q hn⟩

theorem assocFind_deps_subset :
    ∀ (items : List (String × List String × List String)) (e : String)
      (dl pl : List String), assocFind items e = some (dl, pl) →
      trimset dl ⊆ items.foldr (fun it acc => trimset it.2.1 ∪ acc) ∅ := by
  intro items
  induction items with
  | nil => intro e dl pl h; simp [assocFind] at h
  | cons kv rest ih =>
    intro e dl pl h
    obtain ⟨k, v⟩ := kv
    by_cases hk : k = e
    · simp only [assocFind, if_pos hk] at h
      cases h
      exact Finset.subset_union_left
    · simp only [assocFind, if_neg hk] at h
      exact (ih e dl pl h).trans Finset.subset_union_right

theorem find_deps_subset (store : Store) (user : List String) (e : String)
    (dl pl : List String) (h : store.find e = some (dl, pl)) :
    trimset dl ⊆ univBound store user :=
  (assocFind_deps_subset store.items e dl pl h).trans Finset.subset_union_right

theorem mem_newList {f pv : Finset String} {dl : List String} {d : String} :
    d ∈ (dl.map strip).dedup.filter (fun d => d ∉ f ∪ pv) ↔
      d ∈ dl.map strip ∧ d ∉ f ∧ d ∉ pv := by
  simp only [List.mem_filter, List.mem_dedup, decide_eq_true_eq, Finset.mem_union]
  tauto

theorem step_done_queue (store : Store) (st : ClosureState)
    (h : step store st = .done) : st.queue = [] := by
  obtain ⟨f, q, pv, pb⟩ := st
  cases q with
  | nil => rfl
  | cons e rest =>
    by_cases hep : e ∈ pv
    · simp [step, hep] at h
    · cases hfind : Store.find store e with
      | none => simp [step, hep, hfind] at h
      | some v => obtain ⟨dl, pl⟩ := v; simp [step, hep, hfind] at h

theorem step_next_cases (store : Store) (f : Finset String) (e : String)
    (rest : List String) (pv : Finset String) (pb : List (String × List String))
    (st' : ClosureState)
    (h : step store ⟨f, e :: rest, pv, pb⟩ = .next st') :
    (e ∈ pv ∧ st' = ⟨f, rest, pv, pb⟩) ∨
    (e ∉ pv ∧ ∃ dl pl, store.find e = some (dl, pl) ∧
       st' = processElement ⟨f, e :: rest, pv, pb⟩ e rest dl pl) := by
  by_cases hep : e ∈ pv
  · left
    simp only [step, if_pos hep] at h
    cases h
    exact ⟨hep, rfl⟩
  · right
    refine ⟨hep, ?_⟩
    cases hfind : Store.find store e with
    | none => simp [step, hep, hfind] at h
    | some v =>
      obtain ⟨dl, pl⟩ := v
      refine ⟨dl, pl, rfl, ?_⟩
      simp only [step, if_neg hep, hfind] at h
      cases h
      rfl

/-- The loop invariant: every queued element is already in finalElements;
every finalElements member is still queued, or virtually provided, or has
been processed, meaning its store lookup succeeded and its dependency set
is covered by finalElements together with provided; and every providedBy
entry records an element whose provides file really declares the name. -/
def LoopInv (store : Store) (st : ClosureState) : Prop :=
  (∀ x ∈ st.queue, x ∈ st.final) ∧
  (∀ x ∈ st.final, x ∈ st.queue ∨ x ∈ st.provided ∨
     ∃ dl pl, store.find x = some (dl, pl) ∧
       ∀ d ∈ dl.map strip, d ∈ st.final ∨ d ∈ st.provided) ∧
  (∀ n x, x ∈ pbGet st.providedBy n →
     ∃ dl pl, store.find x = some (dl, pl) ∧ n ∈ pl.map strip)

theorem LoopInv_init (store : Store) (user : List String) :
    LoopInv store (initState user) := by
  refine ⟨?_, ?_, ?_⟩
  · intro x hx
    exact List.mem_toFinset.2 hx
  · intro x hx
    exact Or.inl (List.mem_toFinset.1 hx)
  · intro n x hx
    simp [initState, pbGet] at hx

theorem LoopInv_step (store : Store) (st st' : ClosureState)
    (h : step store st = .next st') (hinv : LoopInv store st) : LoopInv store st' := by
  obtain ⟨f, q, pv, pb⟩ := st
  cases q with
  | nil => simp [step] at h
  | cons e rest =>
    rcases step_next_cases store f e rest pv pb st' h with
      ⟨hep, rfl⟩ | ⟨hep, dl, pl, hfind, rfl⟩
    · obtain ⟨h1, h2, h3⟩ := hinv
      refine ⟨?_, ?_, h3⟩
      · intro x hx
        exact h1 x (List.mem_cons_of_mem e hx)
      · intro x hx
        rcases h2 x hx with hq | hp | hproc
        · rcases List.mem_cons.1 hq with rfl | hq'
          · exact Or.inr (Or.inl hep)
          · exact Or.inl hq'
        · exact Or.inr (Or.inl hp)
        · exact Or.inr (Or.inr hproc)
    · obtain ⟨h1, h2, h3⟩ := hinv
      simp only [processElement]
      refine ⟨?_, ?_, ?_⟩
      · intro x hx
        rcases List.mem_append.1 hx with hx' | hx'
        · exact Finset.mem_union_left _ (h1 x (List.mem_cons_of_mem e hx'))
        · exact Finset.mem_union_right _ (List.mem_toFinset.2 (mem_newList.1 hx').1)
      · intro x hx
        by_cases hxf : x ∈ f
        · rcases h2 x hxf with hq | hp | ⟨dl', pl', hfind', hdeps⟩
          · rcases List.mem_cons.1 hq with rfl | hq'
            · refine Or.inr (Or.inr ⟨dl, pl, hfind, ?_⟩)
              intro d hd
              exact Or.inl (Finset.mem_union_right _ (List.mem_toFinset.2 hd))
            · exact Or.inl (List.mem_append_left _ hq')
          · exact Or.inr (Or.inl (Finset.mem_union_left _ hp))
          · refine Or.inr (Or.inr ⟨dl', pl', hfind', ?_⟩)
            intro d hd
            exact (hdeps d hd).imp (Finset.mem_union_left _) (Finset.mem_union_left _)
        · have hxd : x ∈ trimset dl := by
            rcases Finset.mem_union.1 hx with hx' | hx'
            · exact absurd hx' hxf
            · exact hx'
          by_cases hxp : x ∈ pv ∪ trimset pl
          · exact Or.inr (Or.inl hxp)
          · refine Or.inl (List.mem_append_right _ ?_)
            refine mem_newList.2 ⟨List.mem_toFinset.1 hxd, hxf, ?_⟩
            exact hxp
      · intro n x hx
        rcases mem_pbGet_pbAddAll pb ((pl.map strip).dedup) e x n hx with hold | ⟨rfl, hn⟩
        · exact h3 n x hold
        · exact ⟨dl, pl, hfind, List.mem_dedup.1 hn⟩

theorem runLoop_done_inv (store : Store) :
    ∀ (fuel : Nat) (st st' : ClosureState), LoopInv store st →
      runLoop store fuel st = .done st' → LoopInv store st' ∧ st'.queue = [] := by
  intro fuel
  induction fuel with
  | zero => intro st st' _ h; simp [runLoop] at h
  | succ n ih =>
    intro st st' hinv h
    cases hs : step store st with
    | done =>
      simp only [runLoop, hs] at h
      cases h
      exact ⟨hinv, step_done_queue store st hs⟩
    | fail e => simp [runLoop, hs] at h
    | next st'' =>
      simp only [runLoop, hs] at h
      exact ih st'' st' (LoopInv_step store st st'' hs hinv) h

theorem step_final_mono (store : Store) (st st' : ClosureState)
    (h : step store st = .next st') : st.final ⊆ st'.final := by
  obtain ⟨f, q, pv, pb⟩ := st
  cases q with
  | nil => simp [step] at h
  | cons e rest =>
    rcases step_next_cases store f e rest pv pb st' h with
      ⟨_, rfl⟩ | ⟨_, dl, pl, _, rfl⟩
    · exact Finset.Subset.refl f
    · exact Finset.subset_union_left

theorem runLoop_final_mono (store : Store) :
    ∀ (fuel : Nat) (st st' : ClosureState),
      runLoop store fuel st = .done st' → st.final ⊆ st'.final := by
  intro fuel
  induction fuel with
  | zero => intro st st' h; simp [runLoop] at h
  | succ n ih =>
    intro st st' h
    cases hs : step store st with
    | done =>
      simp only [runLoop, hs] at h
      cases h
      exact Finset.Subset.refl _
    | fail e => simp [runLoop, hs] at h
    | next st'' =>
      simp only [runLoop, hs] at h
      exact (step_final_mono store st st'' hs).trans (ih st'' st' h)

theorem expand_eq_finish (store : Store) (user : List String) (st : ClosureState)
    (h : runLoop store (fuelInit store user) (initState user) = .done st) :
    expand_dependencies store user = finish user st := by
  unfold expand_dependencies
  rw [h]

/-- Termination measure of the loop: queue length plus twice the number
of universe elements not yet in finalElements. A skip iteration shortens
the queue; a processing iteration pays for each newly queued element by
moving it into finalElements for good. -/
def measureFn (store : Store) (user : List String) (st : ClosureState) : Nat :=
  st.queue.length + 2 * ((univBound store user) \ st.final).card

theorem measure_key (U f D : Finset String) (newList : List String)
    (hnodup : newList.Nodup) (hmemD : ∀ x ∈ newList, x ∈ D)
    (hmemF : ∀ x ∈ newList, x ∉ f) (hDU : D ⊆ U) :
    newList.length + 2 * (U \ (f ∪ D)).card < 1 + 2 * (U \ f).card := by
  have hcard : newList.toFinset.card = newList.length :=
    List.toFinset_card_of_nodup hnodup
  have hsubN : newList.toFinset ⊆ U \ f := by
    intro x hx
    have hx' := List.mem_toFinset.1 hx
    exact Finset.mem_sdiff.2 ⟨hDU (hmemD x hx'), hmemF x hx'⟩
  have hsub2 : U \ (f ∪ D) ⊆ (U \ f) \ newList.toFinset := by
    intro x hx
    rcases Finset.mem_sdiff.1 hx with ⟨hxU, hxfd⟩
    rcases Finset.not_mem_union.1 hxfd with ⟨hxf, hxd⟩
    refine Finset.mem_sdiff.2 ⟨Finset.mem_sdiff.2 ⟨hxU, hxf⟩, ?_⟩
    intro hxN
    exact hxd (hmemD x (List.mem_toFinset.1 hxN))
  have hc1 : (U \ (f ∪ D)).card ≤ ((U \ f) \ newList.toFinset).card :=
    Finset.card_le_card hsub2
  have hc2 : ((U \ f) \ newList.toFinset).card
      = (U \ f).card - newList.toFinset.card := Finset.card_sdiff hsubN
  have hc3 : newList.toFinset.card ≤ (U \ f).card := Finset.card_le_card hsubN
  omega

theorem step_measure (store : Store) (user : List String) (st st' : ClosureState)
    (h : step store st = .next st') :
    measureFn store user st' < measureFn store user st := by
  obtain ⟨f, q, pv, pb⟩ := st
  cases q with
  | nil => simp [step] at h
  | cons e rest =>
    rcases step_next_cases store f e rest pv pb st' h with
      ⟨_, rfl⟩ | ⟨_, dl, pl, hfind, rfl⟩
    · simp [measureFn]
    · simp only [measureFn, processElement, List.length_append, List.length_cons]
      have key := measure_key (univBound store user) f (trimset dl)
        ((dl.map strip).dedup.filter fun d => d ∉ f ∪ (pv ∪ trimset pl))
        ((List.nodup_dedup (dl.map strip)).filter _)
        (fun x hx => List.mem_toFinset.2 (mem_newList.1 hx).1)
        (fun x hx => (mem_newList.1 hx).2.1)
        (find_deps_subset store user e dl pl hfind)
      omega

theorem measure_init_lt (store : Store) (user : List String) :
    measureFn store user (initState user) < fuelInit store user := by
  have h : ((univBound store user) \ user.toFinset).card
      ≤ (univBound store user).card :=
    Finset.card_le_card (Finset.sdiff_subset)
  simp only [measureFn, initState, fuelInit]
  omega

theorem runLoop_no_fuel_exhaustion (store : Store) (user : List String) :
    ∀ (fuel : Nat) (st : ClosureState), measureFn store user st < fuel →
      (∃ st', runLoop store fuel st = .done st') ∨
      (∃ e, runLoop store fuel st = .notFound e) := by
  intro fuel
  induction fuel with
  | zero => intro st h; omega
  | succ n ih =>
    intro st h
    cases hs : step store st with
    | done => exact Or.inl ⟨st, by simp only [runLoop, hs]⟩
    | fail e => exact Or.inr ⟨e, by simp only [runLoop, hs]⟩
    | next st' =>
      have hm := step_measure store user st st' hs
      have hm' : measureFn store user st' < n := by omega
      rcases ih st' hm' with ⟨st'', h''⟩ | ⟨e, h''⟩
      · exact Or.inl ⟨st'', by simp only [runLoop, hs]; exact h''⟩
      · exact Or.inr ⟨e, by simp only [runLoop, hs]; exact h''⟩

/-- Run characterization: along any order-generalised run, finalElements
is exactly the user set plus the dependency sets of the processed
elements, and provided is exactly the union of their provides sets. -/
theorem nreach_char (store : Store) (user : List String) (st : NState)
    (h : NReach store (initN user) st) :
    st.final = user.toFinset ∪ st.processed.biUnion (fun e => depsOf store e) ∧
    st.provided = st.processed.biUnion (fun e => provsOf store e) := by
  induction h with
  | refl => constructor <;> simp [initN]
  | tail hr hstep ih =>
    cases hstep with
    | skip e hp1 hp2 heq =>
      subst heq
      exact ⟨ih.1, ih.2⟩
    | process e dl pl hp hnp hfind heq =>
      subst heq
      constructor
      · ext x
        simp only [Finset.mem_union, ih.1, Finset.biUnion_insert, depsOf, hfind]
        tauto
      · ext x
        simp only [Finset.mem_union, ih.2, Finset.biUnion_insert, provsOf, hfind]
        tauto

theorem finish_ok (user : List String) (st : ClosureState) (s : Finset String)
    (h : finish user st = .ok s) :
    s = st.final \ st.provided ∧ "operating-system" ∈ st.provided ∧
    user.dedup.filter (fun e => e ∈ st.provided) = [] := by
  simp only [finish] at h
  split at h
  next hos =>
    split at h
    next hc =>
      cases h
      exact ⟨rfl, hos, hc⟩
    next hc => cases h
  next hos => cases h

theorem finish_missingOS_iff (user : List String) (st : ClosureState) :
    finish user st = .missingOS ↔ "operating-system" ∉ st.provided := by
  simp only [finish]
  split
  next hos =>
    split <;> simp [hos]
  next hos => simp [hos]

theorem finish_conflicting (user : List String) (st : ClosureState)
    (l : List (String × List String)) (h : finish user st = .conflicting l) :
    "operating-system" ∈ st.provided ∧
    user.dedup.filter (fun e => e ∈ st.provided) ≠ [] ∧
    l = (user.dedup.filter (fun e => e ∈ st.provided)).map
          (fun n => (n, pbGet st.providedBy n)) := by
  simp only [finish] at h
  split at h
  next hos =>
    split at h
    next hc => cases h
    next hc =>
      cases h
      exact ⟨hos, hc, rfl⟩
  next hos => cases h

theorem finish_conflicting_of (user : List String) (st : ClosureState)
    (hos : "operating-system" ∈ st.provided)
    (hc : user.dedup.filter (fun e => e ∈ st.provided) ≠ []) :
    finish user st = .conflicting
      ((user.dedup.filter (fun e => e ∈ st.provided)).map
         (fun n => (n, pbGet st.providedBy n))) := by
  simp only [finish, if_pos hos, if_neg hc]

theorem conflicts_filter_ne_nil_iff (user : List String) (pv : Finset String) :
    user.dedup.filter (fun e => e ∈ pv) ≠ [] ↔ (user.toFinset ∩ pv).Nonempty := by
  rw [Ne, List.filter_eq_nil_iff]
  push_neg
  constructor
  · rintro ⟨a, ha, hpa⟩
    refine ⟨a, Finset.mem_inter.2 ⟨List.mem_toFinset.2 (List.mem_dedup.1 ha), ?_⟩⟩
    simpa using hpa
  · rintro ⟨a, ha⟩
    rcases Finset.mem_inter.1 ha with ⟨h1, h2⟩
    refine ⟨a, List.mem_dedup.2 (List.mem_toFinset.1 h1), ?_⟩
    simpa using h2

/-- C1. Closure completeness: whenever expand_dependencies succeeds, every
element of the returned set has a successful store lookup, and each of
its stripped dependency names lies in the returned set or in the final
provided set accumulated by the loop. -/
theorem closure_completeness (store : Store) (user : List String)
    (st : ClosureState) (s : Finset String)
    (hrun : runLoop store (fuelInit store user) (initState user) = .done st)
    (hok : expand_dependencies store user = .ok s) :
    ∀ x ∈ s, ∃ dl pl, store.find x = some (dl, pl) ∧
      ∀ d ∈ dl.map strip, d ∈ s ∨ d ∈ st.provided := by
  rw [expand_eq_finish store user st hrun] at hok
  obtain ⟨hs, hos, hc⟩ := finish_ok user st s hok
  subst hs
  obtain ⟨⟨h1, h2, h3⟩, hq⟩ :=
    runLoop_done_inv store _ _ _ (LoopInv_init store user) hrun
  intro x hx
  rcases Finset.mem_sdiff.1 hx with ⟨hxf, hxp⟩
  rcases h2 x hxf with hqx | hpx | ⟨dl, pl, hfind, hdeps⟩
  · rw [hq] at hqx
    cases hqx
  · exact absurd hpx hxp
  · refine ⟨dl, pl, hfind, ?_⟩
    intro d hd
    rcases hdeps d hd with hdf | hdp
    · by_cases hdp2 : d ∈ st.provided
      · exact Or.inr hdp2
      · exact Or.inl (Finset.mem_sdiff.2 ⟨hdf, hdp2⟩)
    · exact Or.inr hdp

theorem closure_completeness_witness :
    ∃ dl pl, store1.find "A" = some (dl, pl) ∧
      ∀ d ∈ dl.map strip, d ∈ ({"A", "B"} : Finset String) ∨ d ∈ st1.provided :=
  closure_completeness store1 ["A"] st1 {"A", "B"} (by decide) (by decide)
    "A" (by decide)

/-- C2. Subset law: a successful result is exactly finalElements minus
provided as accumulated by the loop, and is therefore disjoint from the
provided set. -/
theorem result_disjoint_from_provided (store : Store) (user : List String)
    (st : ClosureState) (s : Finset String)
    (hrun : runLoop store (fuelInit store user) (initState user) = .done st)
    (hok : expand_dependencies store user = .ok s) :
    s = st.final \ st.provided ∧ Disjoint s st.provided := by
  rw [expand_eq_finish store user st hrun] at hok
  obtain ⟨hs, _, _⟩ := finish_ok user st s hok
  subst hs
  exact ⟨rfl, Finset.sdiff_disjoint⟩

theorem result_disjoint_from_provided_witness :
    ({"A", "B"} : Finset String) = st1.final \ st1.provided ∧
    Disjoint ({"A", "B"} : Finset String) st1.provided :=
  result_disjoint_from_provided store1 ["A"] st1 {"A", "B"} (by decide) (by decide)

/-- C3. Operating-system validation: once the loop has finished,
expand_dependencies reports the missing-operating-system error exactly
when the accumulated provided set lacks the name operating-system; the
check precedes the conflict check, so an input with both defects still
reports the missing operating system (the witness exercises this). -/
theorem missing_os_iff (store : Store) (user : List String)
    (st : ClosureState)
    (hrun : runLoop store (fuelInit store user) (initState user) = .done st) :
    expand_dependencies store user = .missingOS ↔
      "operating-system" ∉ st.provided := by
  rw [expand_eq_finish store user st hrun]
  exact finish_missingOS_iff user st

theorem missing_os_iff_witness :
    expand_dependencies store3 ["A", "V"] = .missingOS ↔
      "operating-system" ∉ st3.provided :=
  missing_os_iff store3 ["A", "V"] st3 (by decide)

/-- C4. Conflict detection: after a loop run whose provided set contains
operating-system, the run fails with the conflicting-elements error
exactly when some user-requested element is in the final provided set,
and the reported list pairs each conflicting name with its providedBy
list, every entry of which is an element whose provides file declares
that name. -/
theorem conflict_detection (store : Store) (user : List String)
    (st : ClosureState)
    (hrun : runLoop store (fuelInit store user) (initState user) = .done st)
    (hos : "operating-system" ∈ st.provided) :
    ((∃ l, expand_dependencies store user = .conflicting l) ↔
       (user.toFinset ∩ st.provided).Nonempty) ∧
    (∀ l, expand_dependencies store user = .conflicting l →
       l = (user.dedup.filter (fun e => e ∈ st.provided)).map
             (fun n => (n, pbGet st.providedBy n)) ∧
       ∀ p ∈ l, ∀ x ∈ p.2, ∃ dl pl, store.find x = some (dl, pl) ∧
         p.1 ∈ pl.map strip) := by
  rw [expand_eq_finish store user st hrun]
  obtain ⟨⟨h1, h2, h3⟩, hq⟩ :=
    runLoop_done_inv store _ _ _ (LoopInv_init store user) hrun
  constructor
  · constructor
    · rintro ⟨l, hl⟩
      obtain ⟨_, hc, _⟩ := finish_conflicting user st l hl
      exact (conflicts_filter_ne_nil_iff user st.provided).1 hc
    · intro hne
      exact ⟨_, finish_conflicting_of user st hos
        ((conflicts_filter_ne_nil_iff user st.provided).2 hne)⟩
  · intro l hl
    obtain ⟨_, _, hform⟩ := finish_conflicting user st l hl
    subst hform
    refine ⟨rfl, ?_⟩
    intro p hp x hx
    rcases List.mem_map.1 hp with ⟨n, _, rfl⟩
    exact h3 n x hx

theorem conflict_detection_witness :
    ((∃ l, expand_dependencies store4 ["A", "V"] = .conflicting l) ↔
       ((["A", "V"] : List String).toFinset ∩ st4.provided).Nonempty) ∧
    (∀ l, expand_dependencies store4 ["A", "V"] = .conflicting l →
       l = ((["A", "V"] : List String).dedup.filter
              (fun e => e ∈ st4.provided)).map
             (fun n => (n, pbGet st4.providedBy n)) ∧
       ∀ p ∈ l, ∀ x ∈ p.2, ∃ dl pl, store4.find x = some (dl, pl) ∧
         p.1 ∈ pl.map strip) :=
  conflict_detection store4 ["A", "V"] st4 (by decide) (by decide)

/-- C6. Skip-if-provided: when the element at the front of the queue is
already in the provided set, the iteration only removes it from the
queue (finalElements, provided and providedBy are untouched) and is
independent of the store, so the store is not queried. -/
theorem skip_if_provided (store store2 : Store) (st : ClosureState)
    (e : String) (rest : List String)
    (hq : st.queue = e :: rest) (hp : e ∈ st.provided) :
    step store st = .next ⟨st.final, rest, st.provided, st.providedBy⟩ ∧
    step store st = step store2 st := by
  obtain ⟨f, q, pv, pb⟩ := st
  simp only at hq
  subst hq
  constructor <;> simp [step, hp]

theorem skip_if_provided_witness :
    step ⟨[]⟩ ⟨{"A"}, ["A"], {"A"}, []⟩
        = .next ⟨({"A"} : Finset String), [], {"A"}, []⟩ ∧
    step ⟨[]⟩ ⟨{"A"}, ["A"], {"A"}, []⟩
        = step ⟨[("A", (["Z"], ["W"]))]⟩ ⟨{"A"}, ["A"], {"A"}, []⟩ :=
  skip_if_provided ⟨[]⟩ ⟨[("A", (["Z"], ["W"]))]⟩ ⟨{"A"}, ["A"], {"A"}, []⟩
    "A" [] rfl (by decide)

/-- C9. Termination: with the computed fuel, the expansion loop always
runs to completion, ending with the post-loop state or with the fatal
element-not-found exit; it never exhausts the fuel. Each element is
enqueued by the extend step at most once, because it is enqueued only
while outside finalElements and enters finalElements in that same
iteration. -/
theorem expansion_terminates (store : Store) (user : List String) :
    (∃ st, runLoop store (fuelInit store user) (initState user) = .done st) ∨
    (∃ e, runLoop store (fuelInit store user) (initState user) = .notFound e) :=
  runLoop_no_fuel_exhaustion store user (fuelInit store user) (initState user)
    (measure_init_lt store user)

/-- C10. Empty input: with no user elements the loop body never runs, so
provided stays empty and the call fails with the missing-operating-system
error for every store; the quantification over all stores expresses that
the store is never queried. -/
theorem empty_input_missing_os (store : Store) :
    expand_dependencies store [] = .missingOS := by
  have hk : fuelInit store [] = 2 * (univBound store []).card + 1 := by
    simp [fuelInit]
  unfold expand_dependencies
  rw [hk]
  simp [runLoop, step, initState, finish]

/-- C8 counterexample. The closure of [A] under store8 is {A, B}, no
element of that closure provides another element of it, yet re-running
expand_dependencies on the closure does not return the same set: the
first run skipped D (provided by P before D was reached), while the
re-run no longer processes P's provider early enough, explores D, and
returns {A, B, D}. -/
theorem rerun_not_idempotent :
    expand_dependencies store8 ["A"] = .ok {"A", "B"} ∧
    (∀ x ∈ ({"A", "B"} : Finset String), ∀ y ∈ ({"A", "B"} : Finset String),
       y ∉ provsOf store8 x) ∧
    expand_dependencies store8 ["A", "B"] ≠ .ok {"A", "B"} := by
  refine ⟨by decide, by decide, by decide⟩

/-- C8 as amended: a successful expansion always returns a superset of
the user request; in particular, when re-running on a previously
returned closure succeeds, the new result contains that closure, but it
can be strictly larger. -/
theorem rerun_returns_superset (store : Store) (user : List String)
    (s : Finset String) (hok : expand_dependencies store user = .ok s) :
    user.toFinset ⊆ s := by
  rcases runLoop_no_fuel_exhaustion store user (fuelInit store user)
      (initState user) (measure_init_lt store user) with ⟨st, hst⟩ | ⟨e, he⟩
  · rw [expand_eq_finish store user st hst] at hok
    obtain ⟨hs, _, hc⟩ := finish_ok user st s hok
    subst hs
    intro x hx
    have hxf : x ∈ st.final := by
      refine runLoop_final_mono store (fuelInit store user) (initState user)
        st hst ?_
      exact hx
    have hxp : x ∉ st.provided := by
      intro hxp
      have h2 := List.filter_eq_nil_iff.1 hc x
        (List.mem_dedup.2 (List.mem_toFinset.1 hx))
      simp [hxp] at h2
    exact Finset.mem_sdiff.2 ⟨hxf, hxp⟩
  · unfold expand_dependencies at hok
    rw [he] at hok
    cases hok

theorem rerun_returns_superset_witness :
    (["A"] : List String).toFinset ⊆ ({"A", "B"} : Finset String) :=
  rerun_returns_superset store1 ["A"] {"A", "B"} (by decide)

theorem expand_ok_congr {s t : Finset String} (r : ExpandResult)
    (h : r = .ok s) (hst : s = t) : r = .ok t := by
  rw [h, hst]

theorem coe_filter_dedup_sdiff (X : Finset String) (l : List String) :
    Multiset.ofList (l.dedup.filter fun d => d ∉ X) = (l.toFinset \ X).val := by
  rw [Finset.sdiff_eq_filter, Finset.filter_val]
  have h1 : (l.toFinset).val = Multiset.ofList l.dedup := by
    rw [List.toFinset]
    rfl
  rw [h1]
  rfl

theorem step_refines_nstep (store : Store) (st st' : ClosureState)
    (p : Finset String) (h : step store st = .next st') :
    ∃ p' : Finset String,
      NStep store ⟨st.final, Multiset.ofList st.queue, st.provided, st.providedBy, p⟩
        ⟨st'.final, Multiset.ofList st'.queue, st'.provided, st'.providedBy, p'⟩ := by
  obtain ⟨f, q, pv, pb⟩ := st
  cases q with
  | nil => simp [step] at h
  | cons e rest =>
    rcases step_next_cases store f e rest pv pb st' h with
      ⟨hep, rfl⟩ | ⟨hep, dl, pl, hfind, rfl⟩
    · refine ⟨p, NStep.skip _ _ e (by simp) hep ?_⟩
      rw [NState.mk.injEq]
      refine ⟨rfl, ?_, rfl, rfl, rfl⟩
      simp [Multiset.erase_cons_head]
    · refine ⟨insert e p, NStep.process _ _ e dl pl (by simp) hep hfind ?_⟩
      simp only [processElement]
      rw [NState.mk.injEq]
      refine ⟨rfl, ?_, rfl, rfl, rfl⟩
      simp only [trimset]
      rw [← coe_filter_dedup_sdiff]
      simp [Multiset.erase_cons_head]

theorem runLoop_done_nreach (store : Store) :
    ∀ (fuel : Nat) (st st' : ClosureState) (p : Finset String),
      runLoop store fuel st = .done st' →
      ∃ p', NReach store
          ⟨st.final, Multiset.ofList st.queue, st.provided, st.providedBy, p⟩
          ⟨st'.final, Multiset.ofList st'.queue, st'.provided, st'.providedBy, p'⟩ := by
  intro fuel
  induction fuel with
  | zero => intro st st' p h; simp [runLoop] at h
  | succ n ih =>
    intro st st' p h
    cases hs : step store st with
    | done =>
      simp only [runLoop, hs] at h
      cases h
      exact ⟨p, Relation.ReflTransGen.refl⟩
    | fail e => simp [runLoop, hs] at h
    | next st'' =>
      simp only [runLoop, hs] at h
      obtain ⟨p1, hstep⟩ := step_refines_nstep store st st'' p hs
      obtain ⟨p', hr⟩ := ih st'' st' p1 h
      exact ⟨p', Relation.ReflTransGen.head hstep hr⟩

theorem expand_run_nreach (store : Store) (user : List String)
    (st : ClosureState)
    (h : runLoop store (fuelInit store user) (initState user) = .done st) :
    ∃ p', NReach store (initN user)
        ⟨st.final, Multiset.ofList st.queue, st.provided, st.providedBy, p'⟩ :=
  runLoop_done_nreach store (fuelInit store user) (initState user) st ∅ h

/-- C7 counterexample, with both runs executions of the program itself:
on store9 the user lists [B, C] and [C, B] enumerate the same user set
and differ only in the order in which queued elements are processed (the
FIFO deque is seeded in input order; the queue extension order of the
embedding is one realizable Python set-iteration order). The run seeded
[B, C] pops X before A has been processed, queries X and discovers D,
returning {A, B, C, D}; the run seeded [C, B] processes A first, so X is
popped as already provided and skipped, returning {A, B, C}. The two
runs both succeed but return different result sets, refuting the claim
that processing order may affect only the providedBy diagnostics. -/
theorem order_independence_fails :
    (["B", "C"] : List String).toFinset = (["C", "B"] : List String).toFinset ∧
    expand_dependencies store9 ["B", "C"] = .ok {"A", "B", "C", "D"} ∧
    expand_dependencies store9 ["C", "B"] = .ok {"A", "B", "C"} ∧
    ¬ sameOutcome (expand_dependencies store9 ["B", "C"])
        (expand_dependencies store9 ["C", "B"]) := by
  have e1 : expand_dependencies store9 ["B", "C"] = .ok {"A", "B", "C", "D"} :=
    expand_ok_congr _ rfl (by decide)
  have e2 : expand_dependencies store9 ["C", "B"] = .ok {"A", "B", "C"} :=
    expand_ok_congr _ rfl (by decide)
  refine ⟨by decide, e1, e2, ?_⟩
  rw [e1, e2]
  simp only [sameOutcome]
  decide

/-- C7 as amended: two runs of the order-generalised loop that query the
store for the same set of elements produce outcomes that agree up to the
providedBy diagnostic lists: same result set on success and same error
kind with the same conflicting names on failure. Order independence in
general fails, because order decides which elements are queried. -/
theorem same_processed_same_outcome (store : Store) (user : List String)
    (st₁ st₂ : NState) (h₁ : NReach store (initN user) st₁)
    (h₂ : NReach store (initN user) st₂)
    (hp : st₁.processed = st₂.processed) :
    sameOutcome (finishN user st₁) (finishN user st₂) := by
  obtain ⟨hf₁, hp₁⟩ := nreach_char store user st₁ h₁
  obtain ⟨hf₂, hp₂⟩ := nreach_char store user st₂ h₂
  have hfin : st₁.final = st₂.final := by rw [hf₁, hf₂, hp]
  have hprov : st₁.provided = st₂.provided := by rw [hp₁, hp₂, hp]
  simp only [finishN, finish]
  rw [hprov, hfin]
  by_cases hos : "operating-system" ∈ st₂.provided
  · rw [if_pos hos, if_pos hos]
    by_cases hc : (user.dedup.filter fun e => e ∈ st₂.provided) = []
    · rw [if_pos hc, if_pos hc]
      simp [sameOutcome]
    · rw [if_neg hc, if_neg hc]
      simp [sameOutcome, List.map_map, Function.comp]
  · rw [if_neg hos, if_neg hos]
    simp [sameOutcome]

theorem same_processed_same_outcome_witness :
    sameOutcome (finishN [] (initN [])) (finishN [] (initN [])) :=
  same_processed_same_outcome ⟨[]⟩ [] (initN []) (initN [])
    Relation.ReflTransGen.refl Relation.ReflTransGen.refl rfl

theorem get_set_go_append (element fname : String) (pfx rest : List PathEntry)
    (hpfx : ∀ q ∈ pfx, q.elem element = none) :
    get_set_go element fname (pfx ++ rest) = get_set_go element fname rest := by
  induction pfx with
  | nil => rfl
  | cons p ps ih =>
    have hp := hpfx p (List.mem_cons_self p ps)
    simp only [List.cons_append, get_set_go, hp]
    exact ih (fun q hq => hpfx q (List.mem_cons_of_mem p hq))

theorem get_set_go_none_iff (element fname : String) :
    ∀ path : List PathEntry, get_set_go element fname path = none ↔
      ∀ q ∈ path, q.elem element = none := by
  intro path
  induction path with
  | nil => simp [get_set_go]
  | cons p ps ih =>
    cases hp : p.elem element with
    | none => simp [get_set_go, hp, ih]
    | some dir =>
      cases hd : dir.file fname with
      | none => simp [get_set_go, hp, hd]
      | some lines => simp [get_set_go, hp, hd]

/-- C5. Metadata-store lookup postcondition. First part: when the search
path decomposes as pfx ++ p :: sfx with no element directory for the
element in pfx and one in p, the lookup returns the set of stripped
lines of the file if it is present in p (blank lines becoming empty
strings inside trimset), and the empty set if it is absent, in both
cases whatever comes after p (later directories are not consulted).
Second part: the lookup fails with the element-not-found error, naming
the element and the full search path, exactly when no entry of the path
contains a directory for the element. -/
theorem get_set_postcondition (element fname : String) (path : List PathEntry) :
    (∀ pfx p sfx dir, path = pfx ++ p :: sfx →
       (∀ q ∈ pfx, q.elem element = none) → p.elem element = some dir →
       (∀ lines, dir.file fname = some lines →
          get_set element fname path = .ok (trimset lines)) ∧
       (dir.file fname = none → get_set element fname path = .ok ∅)) ∧
    (get_set element fname path = .elementNotFound element path ↔
       ∀ q ∈ path, q.elem element = none) := by
  constructor
  · rintro pfx p sfx dir rfl hpfx hdir
    constructor
    · intro lines hlines
      unfold get_set
      rw [get_set_go_append element fname pfx (p :: sfx) hpfx]
      simp [get_set_go, hdir, hlines]
    · intro hnone
      unfold get_set
      rw [get_set_go_append element fname pfx (p :: sfx) hpfx]
      simp [get_set_go, hdir, hnone]
  · unfold get_set
    cases hgo : get_set_go element fname path with
    | none =>
      exact iff_of_true rfl ((get_set_go_none_iff element fname path).1 hgo)
    | some s =>
      have hne : ¬ ∀ q ∈ path, q.elem element = none := by
        intro hall
        rw [(get_set_go_none_iff element fname path).2 hall] at hgo
        cases hgo
      simp [hne]

theorem get_set_postcondition_witness :
    get_set "A" "element-deps" [pe0, pe1] = .ok (trimset ["  B  ", ""]) :=
  (((get_set_postcondition "A" "element-deps" [pe0, pe1]).1
      [pe0] pe1 [] dirA rfl (by decide) (by decide)).1
    ["  B  ", ""] (by decide))
